import Mathlib

/-!
Verification of a PII redaction gateway: the reversible anonymization vault
(pii_vault.py, class PIIVault) and the layered security scanner
(security_scanner.py, class SecurityScanner).

Modeling choices of the shallow embedding:
* text is a list of characters; Python str slicing, list slice assignment,
  str.replace and substring membership are spelled out on lists;
* the diskcache is one flat association list from string keys to values
  that are either a string (a mapping record) or a list of strings (a
  session placeholder list), exactly as the source keeps both kinds of
  entry in a single cache under f-string keys; TTL does not appear because
  every claim treated here conditions expiry and eviction away;
* the Presidio analyzer and the Faker placeholder generator are external
  capabilities: the analyzer results are an input list, and gen i is the
  placeholder returned by the i-th generator call of one anonymize run;
* classifier scores are rationals, so that the 0.99 threshold comparison
  is exact;
* the two dynamic-typing faults the vault can hit (list.extend on a str,
  str.replace applied to a list) surface as Except errors.
-/

namespace PiiGateway

/-- Decidable equality for Except values, used to evaluate concrete runs. -/
instance {ε α : Type} [DecidableEq ε] [DecidableEq α] : DecidableEq (Except ε α)
  | .ok a, .ok b =>
    if h : a = b then .isTrue (by rw [h]) else .isFalse (fun he => h (Except.ok.inj he))
  | .error a, .error b =>
    if h : a = b then .isTrue (by rw [h]) else .isFalse (fun he => h (Except.error.inj he))
  | .ok _, .error _ => .isFalse (fun he => Except.noConfusion he)
  | .error _, .ok _ => .isFalse (fun he => Except.noConfusion he)

/-- Python substring membership p in s, as a scan over all start positions. -/
def substrB (p s : List Char) : Bool :=
  (List.range (s.length + 1)).any (fun i => p.isPrefixOf (s.drop i))

/-- Number of positions of s at which p occurs as a substring. -/
def countOcc (s p : List Char) : Nat :=
  (List.range (s.length + 1)).countP (fun i => p.isPrefixOf (s.drop i))

/-- One scan pass of str.replace for a nonempty pattern; the Nat argument
is fuel bounding the number of steps (any fuel at least the length of the
scanned list gives the untruncated behavior): at each position either the
pattern is a prefix and is consumed whole, or one character is emitted. -/
def pyReplaceAux (old new : List Char) : Nat → List Char → List Char
  | _, [] => []
  | 0, s => s
  | fuel + 1, c :: rest =>
    if old.isPrefixOf (c :: rest) then
      new ++ pyReplaceAux old new fuel (rest.drop (old.length - 1))
    else
      c :: pyReplaceAux old new fuel rest

/-- Python s.replace(old, new): every occurrence, scanning left to right;
an empty old inserts new at every boundary, as Python does. -/
def pyReplace (s old new : List Char) : List Char :=
  if old = [] then new ++ (s.map (fun c => c :: new)).flatten
  else pyReplaceAux old new s.length s

/-! ## security_scanner.py -/

/-- The ten prompt-injection phrases from SecurityScanner.__init__. None of
them contains a regex metacharacter, so each compiled pattern matches
exactly its literal phrase, case-insensitively. -/
def injection_patterns : List (List Char) :=
  ["ignore previous instructions".data,
   "ignore all previous instructions".data,
   "system override".data,
   "you are now".data,
   "jailbreak".data,
   "developer mode".data,
   "do anything now".data,
   "always answer".data,
   "unfiltered".data,
   "dan mode".data]

/-- pattern.search(text) for a literal pattern compiled with re.IGNORECASE:
case-insensitive substring containment. -/
def searchCI (pat text : List Char) : Bool :=
  substrB (pat.map Char.toLower) (text.map Char.toLower)

/-- The first pattern, in list order, that matches the text. The scan loop
returns on the first match, and this matched pattern is what it logs. -/
def firstPatternMatch (text : List Char) : Option (List Char) :=
  injection_patterns.find? (fun p => searchCI p text)

/-- SecurityScanner._check_ml. The classifier call either raises (error) or
yields the negative-class score; a score strictly above 0.99 is flagged,
and any exception is caught and turned into True (fail-open). -/
def check_ml (clf : List Char → Except Unit ℚ) (text : List Char) : Bool :=
  match clf text with
  | .error _ => true
  | .ok negative_score => if negative_score > 99 / 100 then false else true

/-- SecurityScanner.scan: the regex layer first, rejecting on the first
matching pattern, then the ML layer. True means safe, False malicious. -/
def scan (clf : List Char → Except Unit ℚ) (text : List Char) : Bool :=
  match firstPatternMatch text with
  | some _ => false
  | none => check_ml clf text

/-- A classifier that always answers with negative score 0. -/
def clfZero : List Char → Except Unit ℚ := fun _ => .ok 0

/-- A classifier that always raises. -/
def clfRaise : List Char → Except Unit ℚ := fun _ => .error ()

/-- C5: text matched by one of the fixed injection patterns (in any letter
case) is rejected by the pattern stage: scan returns false for every
possible classifier, so the classifier stage cannot influence the verdict. -/
theorem C5_pattern_short_circuit (text p : List Char) (hp : p ∈ injection_patterns)
    (hm : searchCI p text = true) (clf : List Char → Except Unit ℚ) :
    scan clf text = false := by
  unfold scan
  cases hfind : firstPatternMatch text with
  | some q => rfl
  | none =>
    exact absurd hm (by simpa using List.find?_eq_none.mp hfind p hp)

/-- Witness for C5: "IGNORE Previous Instructions!" contains the first
pattern up to case, and scan rejects it even under a classifier that
reports a fully benign score. -/
theorem C5_pattern_short_circuit_witness :
    ("ignore previous instructions".data ∈ injection_patterns) ∧
    scan clfZero ("IGNORE Previous Instructions!".data) = false :=
  ⟨by decide,
   C5_pattern_short_circuit ("IGNORE Previous Instructions!".data)
     ("ignore previous instructions".data) (by decide) (by decide) clfZero⟩

/-- C6: when no injection pattern matches and the classifier raises, scan
catches the fault and returns true (fail-open); no exception escapes,
which the embedding shows by scan being Bool-valued and total. -/
theorem C6_fail_open (clf : List Char → Except Unit ℚ) (text : List Char)
    (hnp : firstPatternMatch text = none) (hex : clf text = Except.error ()) :
    scan clf text = true := by
  unfold scan
  rw [hnp]
  unfold check_ml
  rw [hex]

/-- Witness for C6: "hello" matches no pattern and the always-raising
classifier still yields a safe verdict. -/
theorem C6_fail_open_witness : scan clfRaise ("hello".data) = true :=
  C6_fail_open clfRaise ("hello".data) (by decide) rfl

/-- C8: with no pattern match and a classifier score q, the verdict is safe
exactly when q is at most 99/100; only a strictly larger score flags the
text. -/
theorem C8_threshold (clf : List Char → Except Unit ℚ) (text : List Char) (q : ℚ)
    (hnp : firstPatternMatch text = none) (hq : clf text = Except.ok q) :
    scan clf text = true ↔ q ≤ 99 / 100 := by
  unfold scan
  rw [hnp]
  unfold check_ml
  rw [hq]
  rcases le_or_lt q (99 / 100) with h | h
  · simp [not_lt.mpr h, h]
  · simp [h, not_le.mpr h]

/-- Witness for C8: a classifier score of 1/2 on "hello" is accepted. -/
theorem C8_threshold_witness :
    scan (fun _ => Except.ok (1 / 2 : ℚ)) ("hello".data) = true :=
  (C8_threshold (fun _ => Except.ok (1 / 2 : ℚ)) ("hello".data) (1 / 2)
    (by decide) rfl).mpr (by norm_num)

/-- C4 counterexample: scan returns a bare boolean, not a verdict carrying
the matched pattern as a reason. Two inputs rejected by different patterns
produce identical return values, so no reason equal to the matched pattern
can be part of the returned verdict: the claimed output shape does not
exist in the code. -/
theorem C4_counterexample :
    firstPatternMatch ("ignore previous instructions".data) =
      some ("ignore previous instructions".data) ∧
    firstPatternMatch ("try jailbreak".data) = some ("jailbreak".data) ∧
    ("ignore previous instructions".data ≠ "jailbreak".data) ∧
    scan clfZero ("ignore previous instructions".data) =
      scan clfZero ("try jailbreak".data) :=
  ⟨by decide, by decide, by decide, by decide⟩

/-- C4 amended: scan returns only a boolean verdict; when the pattern stage
rejects, the return value is the boolean false, whatever pattern matched
(the matched pattern is only logged). -/
theorem C4_bool_verdict (clf : List Char → Except Unit ℚ) (text p : List Char)
    (h : firstPatternMatch text = some p) : scan clf text = false := by
  unfold scan
  rw [h]

/-- Witness for C4 amended. -/
theorem C4_bool_verdict_witness : scan clfZero ("dan mode on".data) = false :=
  C4_bool_verdict clfZero ("dan mode on".data) ("dan mode".data) (by decide)

/-! ## pii_vault.py -/

/-- A detector match as produced by AnalyzerEngine.analyze: an entity label
together with a half-open [start, stop) character span into the analyzed
text. The source field named end is called stop here (end is reserved). -/
structure RecognizerResult where
  entity_type : List Char
  start : Nat
  stop : Nat
deriving DecidableEq

/-- Python list slice assignment lst[s:e] = r for nonnegative indices:
take clamps at the length, and an empty slice (e ≤ s) inserts at s. -/
def setSlice (l : List Char) (s e : Nat) (r : List Char) : List Char :=
  l.take s ++ r ++ l.drop (max s e)

/-- Python string slice text[s:e] for nonnegative indices. -/
def pySlice (l : List Char) (s e : Nat) : List Char := (l.take e).drop s

/-- Insert into a run already sorted descending by start, placing the new
element before any element of equal start (the new element is the earlier
one in the original order, so this is what stability demands). -/
def insertDesc (r : RecognizerResult) : List RecognizerResult → List RecognizerResult
  | [] => [r]
  | y :: ys => if y.start ≤ r.start then r :: y :: ys else y :: insertDesc r ys

/-- results.sort(key=lambda x: x.start, reverse=True). Python list.sort is
stable, and a stable sort under a fixed key comparison has exactly one
possible output, so this stable insertion sort computes the same list. -/
def sortResultsDesc : List RecognizerResult → List RecognizerResult
  | [] => []
  | r :: rs => insertDesc r (sortResultsDesc rs)

/-- A value stored in the diskcache. The vault keeps both mapping records
(strings) and per-session placeholder lists (lists of strings) in the one
flat cache, so a cache value is one or the other. -/
inductive StoreVal where
  | vstr : List Char → StoreVal
  | vlist : List (List Char) → StoreVal
deriving DecidableEq

/-- The cache: newest binding first; get returns the newest binding. -/
abbrev Store := List (List Char × StoreVal)

def storeGet (st : Store) (k : List Char) : Option StoreVal :=
  (st.find? (fun kv => kv.1 == k)).map (fun kv => kv.2)

/-- cache.set(key, value): overwrites any older binding of the key. -/
def storeSet (st : Store) (k : List Char) (v : StoreVal) : Store :=
  (k, v) :: st

/-- f"session:\x7bsession_id\x7d:\x7bplaceholder\x7d" -/
def mappingKey (session_id placeholder : List Char) : List Char :=
  ("session:".data) ++ session_id ++ (":".data) ++ placeholder

/-- f"session:\x7bsession_id\x7d:keys" -/
def sessionKeysKey (session_id : List Char) : List Char :=
  ("session:".data) ++ session_id ++ (":keys".data)

/-- The dynamic-typing faults the vault can actually raise at runtime:
current_keys.extend when the keys slot holds a str, and str.replace when a
looked-up value is a list. -/
inductive PyErr where
  | attributeError
  | typeError
deriving DecidableEq

/-- The new_mappings dict: insertion-ordered; writing an existing key keeps
its position and updates the value, a new key is appended. -/
abbrev PyDict := List (List Char × List Char)

def dictInsert (d : PyDict) (k v : List Char) : PyDict :=
  if d.any (fun kv => kv.1 == k) then
    d.map (fun kv => if kv.1 == k then (k, v) else kv)
  else d ++ [(k, v)]

def dictKeys (d : PyDict) : List (List Char) := d.map (fun kv => kv.1)

/-- The for-loop of PIIVault.anonymize over the sorted detector results:
each step takes the original substring text[start:end] from the immutable
input text, draws the next placeholder from the generator, writes the
mapping record under f"session:sid:placeholder", records the pair in
new_mappings, and splices the placeholder over the span of the working
character list. -/
def anonLoop (text session_id : List Char) (gen : Nat → List Char) :
    List RecognizerResult → Nat → List Char → Store → PyDict →
    List Char × Store × PyDict
  | [], _, lst, st, nm => (lst, st, nm)
  | r :: rest, i, lst, st, nm =>
    anonLoop text session_id gen rest (i + 1)
      (setSlice lst r.start r.stop (gen i))
      (storeSet st (mappingKey session_id (gen i)) (.vstr (pySlice text r.start r.stop)))
      (dictInsert nm (gen i) (pySlice text r.start r.stop))

/-- PIIVault.anonymize. The analyzer results and the Faker stream are the
two external capabilities and enter as arguments; gen i is the placeholder
produced by the i-th generator call of this run. After the loop the session
keys slot is read (default []), extended with the new placeholders and
written back; if that slot holds a str, current_keys.extend raises
AttributeError. -/
def anonymize (text session_id : List Char) (results : List RecognizerResult)
    (gen : Nat → List Char) (st : Store) : Except PyErr (List Char × Store) :=
  match anonLoop text session_id gen (sortResultsDesc results) 0 text st [] with
  | (lst, st1, nm) =>
    match storeGet st1 (sessionKeysKey session_id) with
    | some (.vstr _) => .error .attributeError
    | some (.vlist cur) =>
      .ok (lst, storeSet st1 (sessionKeysKey session_id) (.vlist (cur ++ dictKeys nm)))
    | none =>
      .ok (lst, storeSet st1 (sessionKeysKey session_id) (.vlist (dictKeys nm)))

/-- The loop of PIIVault.deanonymize over the placeholders recorded for the
session: a placeholder occurring in the current text is looked up under
f"session:sid:placeholder"; a falsy value (None, empty string, empty list)
leaves it unrestored, a nonempty string replaces every occurrence, and a
nonempty list value would make str.replace raise TypeError. -/
def deanonLoop (session_id : List Char) (st : Store) :
    List (List Char) → List Char → Except PyErr (List Char)
  | [], text => .ok text
  | p :: rest, text =>
    if substrB p text then
      match storeGet st (mappingKey session_id p) with
      | some (.vstr v) =>
        if v = [] then deanonLoop session_id st rest text
        else deanonLoop session_id st rest (pyReplace text p v)
      | some (.vlist l) =>
        if l = [] then deanonLoop session_id st rest text
        else .error .typeError
      | none => deanonLoop session_id st rest text
    else deanonLoop session_id st rest text

/-- PIIVault.deanonymize: read the session keys slot (default []) and walk
its placeholders. Iterating a stored list yields its elements; iterating a
stored str yields its one-character substrings, which is how Python
iterates a str. -/
def deanonymize (text session_id : List Char) (st : Store) : Except PyErr (List Char) :=
  deanonLoop session_id st
    (match storeGet st (sessionKeysKey session_id) with
     | some (.vlist l) => l
     | some (.vstr s) => s.map (fun c => [c])
     | none => [])
    text

/-- deanonymize(anonymize(t, s), s) on one store, the round trip of the
spec, with anonymize faults propagated. -/
def roundTrip (t s : List Char) (ms : List RecognizerResult)
    (gen : Nat → List Char) (st : Store) : Except PyErr (List Char) :=
  (anonymize t s ms gen st).bind (fun r => deanonymize r.1 s r.2)

/-- Two half-open spans that do not overlap. -/
def disjointRR (a b : RecognizerResult) : Prop :=
  a.stop ≤ b.start ∨ b.stop ≤ a.start

instance : DecidableRel disjointRR := fun a b => by
  unfold disjointRR
  infer_instance

/-- A detector match that denotes a nonempty in-bounds span of t. -/
def validFor (t : List Char) (r : RecognizerResult) : Prop :=
  r.start < r.stop ∧ r.stop ≤ t.length

instance (t : List Char) : DecidablePred (validFor t) := fun r => by
  unfold validFor
  infer_instance

/-! ### Store and key lemmas -/

theorem storeGet_set_self (st : Store) (k : List Char) (v : StoreVal) :
    storeGet (storeSet st k v) k = some v := by
  unfold storeGet storeSet
  rw [List.find?_cons_of_pos _ (by simp)]
  rfl

theorem storeGet_set_ne (st : Store) (k k' : List Char) (v : StoreVal) (h : k ≠ k') :
    storeGet (storeSet st k v) k' = storeGet st k' := by
  unfold storeGet storeSet
  rw [List.find?_cons_of_neg _ (by simp [h])]

theorem storeGet_nil (k : List Char) : storeGet ([] : Store) k = none := rfl

theorem sessionKeysKey_inj {s1 s2 : List Char}
    (h : sessionKeysKey s1 = sessionKeysKey s2) : s1 = s2 := by
  unfold sessionKeysKey at h
  exact List.append_cancel_left (List.append_cancel_right h)

theorem mappingKey_inj_right {s p1 p2 : List Char}
    (h : mappingKey s p1 = mappingKey s p2) : p1 = p2 := by
  unfold mappingKey at h
  exact List.append_cancel_left h

theorem mappingKey_eq_keysKey_iff {s p : List Char} :
    mappingKey s p = sessionKeysKey s ↔ p = "keys".data := by
  unfold mappingKey sessionKeysKey
  constructor
  · intro h
    rw [List.append_assoc ("session:".data ++ s) (":".data) p] at h
    have h2 := List.append_cancel_left h
    simpa using h2
  · intro h
    subst h
    rw [List.append_assoc ("session:".data ++ s) (":".data) ("keys".data)]
    rfl

/-! ### The three independent components of the anonymize loop -/

/-- The text component of the anonymize loop (the working character list
under repeated slice assignment). -/
def anonTexts (gen : Nat → List Char) : List RecognizerResult → Nat → List Char → List Char
  | [], _, lst => lst
  | r :: rest, i, lst => anonTexts gen rest (i + 1) (setSlice lst r.start r.stop (gen i))

/-- The store component of the anonymize loop (the mapping record writes). -/
def anonStores (text session_id : List Char) (gen : Nat → List Char) :
    List RecognizerResult → Nat → Store → Store
  | [], _, st => st
  | r :: rest, i, st =>
    anonStores text session_id gen rest (i + 1)
      (storeSet st (mappingKey session_id (gen i)) (.vstr (pySlice text r.start r.stop)))

/-- The new_mappings component of the anonymize loop. -/
def anonDicts (text : List Char) (gen : Nat → List Char) :
    List RecognizerResult → Nat → PyDict → PyDict
  | [], _, nm => nm
  | r :: rest, i, nm =>
    anonDicts text gen rest (i + 1) (dictInsert nm (gen i) (pySlice text r.start r.stop))

/-- The loop state components evolve independently: the spliced text never
feeds back into the keys, values or dict entries (original substrings are
read from the immutable input text). -/
theorem anonLoop_eq (text s : List Char) (gen : Nat → List Char) :
    ∀ ds i lst st nm, anonLoop text s gen ds i lst st nm =
      (anonTexts gen ds i lst, anonStores text s gen ds i st, anonDicts text gen ds i nm)
  | [], _, _, _, _ => rfl
  | _ :: rest, i, _, _, _ => anonLoop_eq text s gen rest (i + 1) _ _ _

/-- anonymize, rewritten through the three independent loop components. -/
theorem anonymize_eq (text s : List Char) (ms : List RecognizerResult)
    (gen : Nat → List Char) (st : Store) :
    anonymize text s ms gen st =
      match storeGet (anonStores text s gen (sortResultsDesc ms) 0 st) (sessionKeysKey s) with
      | some (.vstr _) => .error .attributeError
      | some (.vlist cur) =>
        .ok (anonTexts gen (sortResultsDesc ms) 0 text,
          storeSet (anonStores text s gen (sortResultsDesc ms) 0 st) (sessionKeysKey s)
            (.vlist (cur ++ dictKeys (anonDicts text gen (sortResultsDesc ms) 0 []))))
      | none =>
        .ok (anonTexts gen (sortResultsDesc ms) 0 text,
          storeSet (anonStores text s gen (sortResultsDesc ms) 0 st) (sessionKeysKey s)
            (.vlist (dictKeys (anonDicts text gen (sortResultsDesc ms) 0 [])))) := by
  unfold anonymize
  rw [anonLoop_eq]

/-- Keys not written by the loop keep their store value. -/
theorem anonStores_frame (text s : List Char) (gen : Nat → List Char) :
    ∀ ds i st (k : List Char), (∀ j, j < ds.length → k ≠ mappingKey s (gen (i + j))) →
      storeGet (anonStores text s gen ds i st) k = storeGet st k := by
  intro ds
  induction ds with
  | nil => intro i st k _; rfl
  | cons r rest ih =>
    intro i st k h
    have h0 : k ≠ mappingKey s (gen i) := by
      have := h 0 (by simp)
      simpa using this
    show storeGet (anonStores text s gen rest (i + 1) _) k = _
    rw [ih (i + 1) _ k (fun j hj => by
      have := h (j + 1) (by simpa using Nat.succ_lt_succ hj)
      have harr : i + (j + 1) = i + 1 + j := by omega
      rwa [harr] at this)]
    exact storeGet_set_ne st _ k _ (fun he => h0 he.symm)

/-! ### C3: no-match passthrough -/

/-- C3 counterexample: anonymize with no detector matches still writes the
session keys slot. On the empty store, the slot changes from absent to an
empty list, so the store state after the call differs from the state
before, refuting the no-writes part of the claim. -/
theorem C3_counterexample :
    anonymize ("".data) ("s".data) [] (fun _ => []) [] =
      .ok ("".data, [(sessionKeysKey ("s".data), .vlist [])]) ∧
    storeGet [(sessionKeysKey ("s".data), .vlist [])] (sessionKeysKey ("s".data)) ≠
      storeGet ([] : Store) (sessionKeysKey ("s".data)) :=
  ⟨by decide, by decide⟩

/-- C3 amended: with no detector matches, anonymize returns the input text
unchanged and writes no mapping record; its one store effect is rewriting
the session keys slot (created as an empty list when the session had no
prior keys), and every other key keeps its value. -/
theorem C3_no_match_passthrough (t s : List Char) (gen : Nat → List Char) (st : Store)
    (h : storeGet st (sessionKeysKey s) = none) :
    anonymize t s [] gen st = .ok (t, storeSet st (sessionKeysKey s) (.vlist [])) ∧
    ∀ k, k ≠ sessionKeysKey s →
      storeGet (storeSet st (sessionKeysKey s) (.vlist [])) k = storeGet st k := by
  constructor
  · rw [anonymize_eq]
    show (match storeGet st (sessionKeysKey s) with
      | some (.vstr _) => Except.error PyErr.attributeError
      | some (.vlist cur) => .ok (t, storeSet st (sessionKeysKey s) (.vlist (cur ++ dictKeys [])))
      | none => .ok (t, storeSet st (sessionKeysKey s) (.vlist (dictKeys [])))) = _
    rw [h]
    rfl
  · intro k hk
    exact storeGet_set_ne st _ k _ (fun he => hk he.symm)

/-- Witness for C3 amended. -/
theorem C3_no_match_passthrough_witness :
    anonymize ("hi".data) ("s".data) [] (fun _ => []) [] =
      .ok ("hi".data, storeSet [] (sessionKeysKey ("s".data)) (.vlist [])) :=
  (C3_no_match_passthrough ("hi".data) ("s".data) (fun _ => []) [] rfl).1

/-! ### C10: falsy mapping record behaves like a missing one -/

/-- C10: a mapping record holding the empty string is treated by
deanonymize exactly like an absent record. On two stores that agree on
every key except one, where the first holds the empty string and the
second holds nothing, deanonymize returns identical results — in
particular the placeholder is left unrestored, never replaced by the empty
string. -/
theorem C10_falsy_record_like_missing (t s p : List Char) (st1 st2 : Store)
    (h1 : storeGet st1 (mappingKey s p) = some (.vstr []))
    (h2 : storeGet st2 (mappingKey s p) = none)
    (hagree : ∀ k, k ≠ mappingKey s p → storeGet st1 k = storeGet st2 k) :
    deanonymize t s st1 = deanonymize t s st2 := by
  have loopEq : ∀ phs text, deanonLoop s st1 phs text = deanonLoop s st2 phs text := by
    intro phs
    induction phs with
    | nil => intro text; rfl
    | cons q rest ih =>
      intro text
      show (if substrB q text then _ else _) = (if substrB q text then _ else _)
      by_cases hin : substrB q text
      · simp only [hin, if_true]
        by_cases hq : q = p
        · subst hq
          rw [h1, h2]
          simp only [if_pos rfl]
          exact ih text
        · rw [hagree (mappingKey s q) (fun he => hq (mappingKey_inj_right he))]
          cases storeGet st2 (mappingKey s q) with
          | none => exact ih text
          | some v =>
            cases v with
            | vstr w =>
              by_cases hw : w = []
              · simp only [hw, if_pos rfl]
                exact ih text
              · simp only [if_neg hw]
                exact ih (pyReplace text q w)
            | vlist l =>
              by_cases hl : l = []
              · simp only [hl, if_pos rfl]
                exact ih text
              · simp only [if_neg hl]
      · simp only [hin, if_false]
        exact ih text
  unfold deanonymize
  by_cases hk : sessionKeysKey s = mappingKey s p
  · rw [show storeGet st1 (sessionKeysKey s) = some (.vstr []) from hk ▸ h1,
      show storeGet st2 (sessionKeysKey s) = none from hk ▸ h2]
    rfl
  · rw [hagree (sessionKeysKey s) (fun he => hk he)]
    exact loopEq _ t

/-- Witness for C10: a store carrying an empty-string record for
placeholder P is indistinguishable, to deanonymize, from the empty store. -/
theorem C10_falsy_record_like_missing_witness :
    deanonymize ("P".data) ("s".data)
        [(mappingKey ("s".data) ("P".data), StoreVal.vstr [])] =
      deanonymize ("P".data) ("s".data) [] :=
  C10_falsy_record_like_missing ("P".data) ("s".data) ("P".data) _ []
    (by decide) rfl
    (fun k hk => storeGet_set_ne [] (mappingKey ("s".data) ("P".data)) k
      (StoreVal.vstr []) (fun he => hk he.symm))

/-! ### C2: session isolation -/

/-- Two detector matches covering "X" and "Y" of the text "XY". -/
def c2Results : List RecognizerResult :=
  [⟨"PERSON".data, 0, 1⟩, ⟨"PERSON".data, 1, 2⟩]

/-- A generator whose first placeholder is "b:keys" and second is "b:Y". -/
def c2Gen : Nat → List Char :=
  fun i => if i = 0 then ("b:keys".data) else ("b:Y".data)

/-- The store produced by anonymize("XY", "a") with c2Results and c2Gen on
an empty cache. -/
def c2Store : Store :=
  [(sessionKeysKey ("a".data), .vlist [("b:keys".data), ("b:Y".data)]),
   (mappingKey ("a".data) ("b:Y".data), .vstr ("X".data)),
   (mappingKey ("a".data) ("b:keys".data), .vstr ("Y".data))]

/-- C2 counterexample: the flat f-string key scheme is not injective.
Anonymizing under session "a" with placeholder "b:keys" writes the cache
key "session:a:b:keys", which is exactly the keys slot of the distinct
session "a:b". Deanonymizing the output under "a:b", a session with no
anonymize history, then iterates that stored string character by character
and rewrites the text: the output is NOT returned unchanged. -/
theorem C2_counterexample :
    ("a".data ≠ "a:b".data) ∧
    storeGet ([] : Store) (sessionKeysKey ("a:b".data)) = none ∧
    anonymize ("XY".data) ("a".data) c2Results c2Gen [] =
      .ok ("b:Yb:keys".data, c2Store) ∧
    deanonymize ("b:Yb:keys".data) ("a:b".data) c2Store = .ok ("b:Xb:keys".data) ∧
    ("b:Xb:keys".data ≠ "b:Yb:keys".data) :=
  ⟨by decide, by decide, by decide, by decide, by decide⟩

/-- C2 amended: the isolation claim holds provided no flat-key collision
occurs, i.e. no key session:{s1}:{placeholder} written under s1 coincides
with the keys slot session:{s2}:keys of the other session (for instance
whenever placeholders contain no colon). Then a session with no prior
history still has an absent keys slot after the s1 run, and deanonymize
under s2 returns the text unchanged. -/
theorem C2_session_isolation (t s1 s2 : List Char) (ms : List RecognizerResult)
    (gen : Nat → List Char) (st : Store) (o : List Char) (st' : Store)
    (hne : s1 ≠ s2)
    (hfresh : storeGet st (sessionKeysKey s2) = none)
    (hnocoll : ∀ i, mappingKey s1 (gen i) ≠ sessionKeysKey s2)
    (hrun : anonymize t s1 ms gen st = .ok (o, st')) :
    deanonymize o s2 st' = .ok o := by
  rw [anonymize_eq] at hrun
  have hslotne : sessionKeysKey s1 ≠ sessionKeysKey s2 :=
    fun he => hne (sessionKeysKey_inj he)
  have hst1 : storeGet (anonStores t s1 gen (sortResultsDesc ms) 0 st)
      (sessionKeysKey s2) = none := by
    rw [anonStores_frame t s1 gen (sortResultsDesc ms) 0 st (sessionKeysKey s2)
      (fun j _ => fun he => hnocoll (0 + j) he.symm)]
    exact hfresh
  have hkeys2 : storeGet st' (sessionKeysKey s2) = none := by
    rcases hv : storeGet (anonStores t s1 gen (sortResultsDesc ms) 0 st)
        (sessionKeysKey s1) with _ | v
    · rw [hv] at hrun
      have hst' : st' = storeSet (anonStores t s1 gen (sortResultsDesc ms) 0 st)
          (sessionKeysKey s1)
          (.vlist (dictKeys (anonDicts t gen (sortResultsDesc ms) 0 []))) := by
        cases hrun
        rfl
      rw [hst', storeGet_set_ne _ _ _ _ hslotne]
      exact hst1
    · cases v with
      | vstr w =>
        rw [hv] at hrun
        exact absurd hrun (by simp)
      | vlist cur =>
        rw [hv] at hrun
        have hst' : st' = storeSet (anonStores t s1 gen (sortResultsDesc ms) 0 st)
            (sessionKeysKey s1)
            (.vlist (cur ++ dictKeys (anonDicts t gen (sortResultsDesc ms) 0 []))) := by
          cases hrun
          rfl
        rw [hst', storeGet_set_ne _ _ _ _ hslotne]
        exact hst1
  unfold deanonymize
  rw [hkeys2]
  rfl

/-- Witness for C2 amended: anonymizing "My name is X" under session "a"
with a colon-free placeholder, then deanonymizing the result under the
fresh session "b", leaves the result untouched. -/
theorem C2_session_isolation_witness :
    deanonymize ("My name is Anil".data) ("b".data)
      [(sessionKeysKey ("a".data), .vlist [("Anil".data)]),
       (mappingKey ("a".data) ("Anil".data), .vstr ("X".data))] =
      .ok ("My name is Anil".data) :=
  C2_session_isolation ("My name is X".data) ("a".data) ("b".data)
    [⟨"PERSON".data, 11, 12⟩] (fun _ => "Anil".data) []
    ("My name is Anil".data) _
    (by decide) rfl
    (fun i => by
      show mappingKey ("a".data) ("Anil".data) ≠ sessionKeysKey ("b".data)
      decide)
    (by decide)

/-! ### C9: mapping records are committed before the session set -/

/-- The session-set invariant of the store: whenever a session keys slot
holds a list, every placeholder in that list is backed by a string mapping
record. -/
def VaultInv (st : Store) : Prop :=
  ∀ sid L, storeGet st (sessionKeysKey sid) = some (.vlist L) →
    ∀ p ∈ L, ∃ v, storeGet st (mappingKey sid p) = some (.vstr v)

/-- Writing any string value anywhere preserves the invariant: a string
write can only shadow a keys slot (making its condition vacuous) or a
mapping record (keeping a string record in place). -/
theorem VaultInv_set_vstr (st : Store) (k v : List Char) (hinv : VaultInv st) :
    VaultInv (storeSet st k (.vstr v)) := by
  intro sid L hsl p hp
  by_cases hk : k = sessionKeysKey sid
  · rw [hk] at hsl
    rw [storeGet_set_self] at hsl
    exact absurd hsl (by simp)
  · rw [storeGet_set_ne _ _ _ _ hk] at hsl
    obtain ⟨w, hw⟩ := hinv sid L hsl p hp
    by_cases hk2 : k = mappingKey sid p
    · rw [hk2]
      exact ⟨v, storeGet_set_self _ _ _⟩
    · rw [storeGet_set_ne _ _ _ _ hk2]
      exact ⟨w, hw⟩

/-- The anonymize loop only writes string values, so it preserves the
invariant at every step. -/
theorem VaultInv_anonStores (text s : List Char) (gen : Nat → List Char) :
    ∀ ds i st, VaultInv st → VaultInv (anonStores text s gen ds i st) := by
  intro ds
  induction ds with
  | nil => intro i st h; exact h
  | cons r rest ih =>
    intro i st h
    exact ih (i + 1) _ (VaultInv_set_vstr st _ _ h)

/-- A key holding a string record keeps holding a string record through
the loop (its value may be overwritten, but only by another string). -/
theorem anonStores_preserves_vstr (text s : List Char) (gen : Nat → List Char) :
    ∀ ds i st (k : List Char), (∃ v, storeGet st k = some (.vstr v)) →
      ∃ v, storeGet (anonStores text s gen ds i st) k = some (.vstr v) := by
  intro ds
  induction ds with
  | nil => intro i st k h; exact h
  | cons r rest ih =>
    intro i st k h
    refine ih (i + 1) _ k ?_
    by_cases hk : mappingKey s (gen i) = k
    · rw [← hk]
      exact ⟨pySlice text r.start r.stop, storeGet_set_self _ _ _⟩
    · rw [storeGet_set_ne _ _ _ _ hk]
      exact h

/-- Every key the loop writes ends the loop holding a string record. -/
theorem anonStores_written_vstr (text s : List Char) (gen : Nat → List Char) :
    ∀ ds i st (k : List Char), (∃ j, j < ds.length ∧ k = mappingKey s (gen (i + j))) →
      ∃ v, storeGet (anonStores text s gen ds i st) k = some (.vstr v) := by
  intro ds
  induction ds with
  | nil =>
    intro i st k h
    obtain ⟨j, hj, _⟩ := h
    exact absurd hj (by simp)
  | cons r rest ih =>
    intro i st k h
    obtain ⟨j, hj, hk⟩ := h
    cases j with
    | zero =>
      refine anonStores_preserves_vstr text s gen rest (i + 1) _ k ?_
      rw [show k = mappingKey s (gen i) from by simpa using hk]
      exact ⟨pySlice text r.start r.stop, storeGet_set_self _ _ _⟩
    | succ j' =>
      refine ih (i + 1) _ k ⟨j', by simpa using Nat.lt_of_succ_lt_succ hj, ?_⟩
      rw [hk]
      have : i + (j' + 1) = i + 1 + j' := by omega
      rw [this]

/-- A key of the new_mappings dict is either a key already in the
accumulator or one of the placeholders drawn in the remaining window. -/
theorem mem_dictKeys_anonDicts (text : List Char) (gen : Nat → List Char) :
    ∀ ds i nm (p : List Char), p ∈ dictKeys (anonDicts text gen ds i nm) →
      p ∈ dictKeys nm ∨ ∃ j, j < ds.length ∧ p = gen (i + j) := by
  intro ds
  induction ds with
  | nil => intro i nm p h; exact Or.inl h
  | cons r rest ih =>
    intro i nm p h
    rcases ih (i + 1) _ p h with hin | ⟨j, hj, hp⟩
    · unfold dictInsert at hin
      by_cases hc : nm.any (fun kv => kv.1 == gen i)
      · rw [if_pos hc] at hin
        unfold dictKeys at hin
        rw [List.map_map] at hin
        obtain ⟨kv, _, hkv⟩ := List.mem_map.mp hin
        by_cases hw : (kv.1 == gen i) = true
        · right
          refine ⟨0, by simp, ?_⟩
          simp only [Function.comp, hw, if_pos] at hkv
          simp [← hkv]
        · left
          simp only [Function.comp, hw] at hkv
          rw [if_neg (by simp [hw])] at hkv
          exact hkv ▸ List.mem_map_of_mem _ (by assumption)
      · rw [if_neg hc] at hin
        unfold dictKeys at hin
        rw [List.map_append] at hin
        rcases List.mem_append.mp hin with h1 | h2
        · exact Or.inl h1
        · right
          refine ⟨0, by simp, ?_⟩
          simpa using h2
    · right
      refine ⟨j + 1, by simpa using Nat.succ_lt_succ hj, ?_⟩
      have : i + (j + 1) = i + 1 + j := by omega
      rw [this]
      exact hp

/-- C9: per-entity mapping records are written strictly before the session
placeholder set. Starting from any store satisfying the invariant, the
invariant holds after every prefix of the loop (so at every point of an
interrupted run, before the final set write), and it holds again after a
completed anonymize call, whose last action merges the new placeholders
into the session keys slot. Expiry and eviction are outside the model, as
the claim allows. -/
theorem C9_commit_order (t s : List Char) (ms : List RecognizerResult)
    (gen : Nat → List Char) (st : Store) (hinv : VaultInv st) :
    (∀ j, VaultInv (anonStores t s gen ((sortResultsDesc ms).take j) 0 st)) ∧
    (∀ o st', anonymize t s ms gen st = .ok (o, st') → VaultInv st') := by
  constructor
  · intro j
    exact VaultInv_anonStores t s gen _ 0 st hinv
  · intro o st' hrun
    rw [anonymize_eq] at hrun
    have hinv1 : VaultInv (anonStores t s gen (sortResultsDesc ms) 0 st) :=
      VaultInv_anonStores t s gen _ 0 st hinv
    rcases hv : storeGet (anonStores t s gen (sortResultsDesc ms) 0 st)
        (sessionKeysKey s) with _ | v
    case none =>
      rw [hv] at hrun
      have hst' : st' = storeSet (anonStores t s gen (sortResultsDesc ms) 0 st)
          (sessionKeysKey s)
          (.vlist (dictKeys (anonDicts t gen (sortResultsDesc ms) 0 []))) := by
        cases hrun
        rfl
      subst hst'
      intro sid L hsl p hp
      by_cases hsk : sessionKeysKey s = sessionKeysKey sid
      · rw [← hsk, storeGet_set_self] at hsl
        have hsid : s = sid := sessionKeysKey_inj hsk
        subst hsid
        have hL : L = dictKeys (anonDicts t gen (sortResultsDesc ms) 0 []) := by
          have := Option.some.inj hsl
          exact (StoreVal.vlist.inj this).symm
        subst hL
        rcases mem_dictKeys_anonDicts t gen _ 0 [] p hp with hnil | ⟨j, hj, hpj⟩
        · exact absurd hnil (by simp [dictKeys])
        · obtain ⟨w, hw⟩ := anonStores_written_vstr t s gen (sortResultsDesc ms) 0 st
            (mappingKey s p) ⟨j, hj, by rw [hpj]⟩
          refine ⟨w, ?_⟩
          rw [storeGet_set_ne, hw]
          intro he
          rw [he, hw] at hv
          exact Option.noConfusion hv
      · rw [storeGet_set_ne _ _ _ _ hsk] at hsl
        obtain ⟨w, hw⟩ := hinv1 sid L hsl p hp
        refine ⟨w, ?_⟩
        rw [storeGet_set_ne, hw]
        intro he
        rw [he, hw] at hv
        exact Option.noConfusion hv
    case some =>
      cases v with
      | vstr w =>
        rw [hv] at hrun
        exact absurd hrun (by simp)
      | vlist cur =>
        rw [hv] at hrun
        have hst' : st' = storeSet (anonStores t s gen (sortResultsDesc ms) 0 st)
            (sessionKeysKey s)
            (.vlist (cur ++ dictKeys (anonDicts t gen (sortResultsDesc ms) 0 []))) := by
          cases hrun
          rfl
        subst hst'
        intro sid L hsl p hp
        by_cases hsk : sessionKeysKey s = sessionKeysKey sid
        · rw [← hsk, storeGet_set_self] at hsl
          have hsid : s = sid := sessionKeysKey_inj hsk
          subst hsid
          have hL : L = cur ++ dictKeys (anonDicts t gen (sortResultsDesc ms) 0 []) := by
            have := Option.some.inj hsl
            exact (StoreVal.vlist.inj this).symm
          subst hL
          rcases List.mem_append.mp hp with hcur | hnew
          · obtain ⟨w, hw⟩ := hinv1 s cur hv p hcur
            refine ⟨w, ?_⟩
            rw [storeGet_set_ne, hw]
            intro he
            rw [he, hw] at hv
            exact absurd (Option.some.inj hv) (by simp)
          · rcases mem_dictKeys_anonDicts t gen _ 0 [] p hnew with hnil | ⟨j, hj, hpj⟩
            · exact absurd hnil (by simp [dictKeys])
            · obtain ⟨w, hw⟩ := anonStores_written_vstr t s gen (sortResultsDesc ms) 0 st
                (mappingKey s p) ⟨j, hj, by rw [hpj]⟩
              refine ⟨w, ?_⟩
              rw [storeGet_set_ne, hw]
              intro he
              rw [he, hw] at hv
              exact absurd (Option.some.inj hv) (by simp)
        · rw [storeGet_set_ne _ _ _ _ hsk] at hsl
          obtain ⟨w, hw⟩ := hinv1 sid L hsl p hp
          refine ⟨w, ?_⟩
          rw [storeGet_set_ne, hw]
          intro he
          rw [he, hw] at hv
          exact absurd (Option.some.inj hv) (by simp)

/-- Witness for C9, at a concrete anonymize run on the empty store (which
satisfies the invariant vacuously): the final store still satisfies it. -/
theorem C9_commit_order_witness :
    VaultInv [(sessionKeysKey ("s".data), .vlist [("Q".data)]),
      (mappingKey ("s".data) ("Q".data), .vstr ("X".data))] :=
  (C9_commit_order ("hi X.".data) ("s".data) [⟨"PERSON".data, 3, 4⟩]
      (fun _ => "Q".data) []
      (fun sid L h => absurd h (by simp [storeGet]))).2
    ("hi Q.".data) _ (by decide)

/-! ### C7: back-to-front splicing produces the segmented text -/

/-- The text the splicing pass is meant to produce, phrased along the
descending-sorted match list: the placeholder for the first (rightmost)
match sits exactly over its span, and the recursion rewrites only the
prefix before that span for the remaining matches. Unfolded, this is the
interleaving of the untouched pieces of t with the placeholders: every
match span is replaced by exactly its placeholder and every character
outside the spans is kept. -/
def expectedAnon (gen : Nat → List Char) : List Char → List RecognizerResult → Nat → List Char
  | t, [], _ => t
  | t, r :: rest, i =>
    expectedAnon gen (t.take r.start) rest (i + 1) ++ gen i ++ t.drop r.stop

theorem insertDesc_perm (r : RecognizerResult) (l : List RecognizerResult) :
    (insertDesc r l).Perm (r :: l) := by
  induction l with
  | nil => exact List.Perm.refl _
  | cons y ys ih =>
    unfold insertDesc
    by_cases h : y.start ≤ r.start
    · rw [if_pos h]
    · rw [if_neg h]
      exact (ih.cons y).trans (List.Perm.swap r y ys)

theorem sortResultsDesc_perm (l : List RecognizerResult) :
    (sortResultsDesc l).Perm l := by
  induction l with
  | nil => exact List.Perm.refl _
  | cons r rs ih => exact (insertDesc_perm r (sortResultsDesc rs)).trans (ih.cons r)

theorem insertDesc_sorted {r : RecognizerResult} {l : List RecognizerResult}
    (h : List.Pairwise (fun a b => b.start ≤ a.start) l) :
    List.Pairwise (fun a b => b.start ≤ a.start) (insertDesc r l) := by
  induction l with
  | nil => simp [insertDesc]
  | cons y ys ih =>
    rcases List.pairwise_cons.mp h with ⟨hy, hys⟩
    unfold insertDesc
    by_cases hc : y.start ≤ r.start
    · rw [if_pos hc]
      refine List.pairwise_cons.mpr ⟨?_, h⟩
      intro b hb
      rcases List.mem_cons.mp hb with hb | hb
      · exact hb ▸ hc
      · exact le_trans (hy b hb) hc
    · rw [if_neg hc]
      refine List.pairwise_cons.mpr ⟨?_, ih hys⟩
      intro b hb
      rcases List.mem_cons.mp ((insertDesc_perm r ys).mem_iff.mp hb) with hb | hb
      · exact hb ▸ le_of_lt (not_le.mp hc)
      · exact hy b hb

theorem sortResultsDesc_sorted (l : List RecognizerResult) :
    List.Pairwise (fun a b => b.start ≤ a.start) (sortResultsDesc l) := by
  induction l with
  | nil => simp [sortResultsDesc]
  | cons r rs ih => exact insertDesc_sorted ih

theorem disjointRR_symm {a b : RecognizerResult} (h : disjointRR a b) : disjointRR b a :=
  Or.symm h

/-- Hypothesis bundle for the splicing pass: matches listed in descending
start order, pairwise disjoint, each a nonempty span ending within m. -/
def DescChain (m : Nat) (ds : List RecognizerResult) : Prop :=
  List.Pairwise (fun a b => b.start ≤ a.start) ds ∧
  List.Pairwise disjointRR ds ∧
  ∀ r ∈ ds, r.start < r.stop ∧ r.stop ≤ m

theorem DescChain_tail {m : Nat} {r : RecognizerResult} {rest : List RecognizerResult}
    (h : DescChain m (r :: rest)) : DescChain r.start rest := by
  obtain ⟨hsort, hdisj, hval⟩ := h
  rcases List.pairwise_cons.mp hsort with ⟨hge, hsort'⟩
  rcases List.pairwise_cons.mp hdisj with ⟨hdj, hdisj'⟩
  refine ⟨hsort', hdisj', fun r' hr' => ?_⟩
  have hv' := hval r' (List.mem_cons_of_mem r hr')
  have hvr := hval r (List.mem_cons_self r rest)
  refine ⟨hv'.1, ?_⟩
  rcases hdj r' hr' with hcase | hcase
  · exact absurd (lt_of_lt_of_le hvr.1 (le_trans hcase (hge r' hr'))) (lt_irrefl _)
  · exact hcase

theorem DescChain_mono {m m' : Nat} {ds : List RecognizerResult}
    (hm : m ≤ m') (h : DescChain m ds) : DescChain m' ds :=
  ⟨h.1, h.2.1, fun r hr => ⟨(h.2.2 r hr).1, le_trans (h.2.2 r hr).2 hm⟩⟩

theorem setSlice_append (u v p : List Char) (s e : Nat)
    (hs : s ≤ u.length) (he : e ≤ u.length) :
    setSlice (u ++ v) s e p = setSlice u s e p ++ v := by
  unfold setSlice
  rw [List.take_append_eq_append_take, List.drop_append_eq_append_drop]
  have h1 : s - u.length = 0 := by omega
  have h2 : max s e - u.length = 0 := by omega
  rw [h1, h2]
  simp [List.append_assoc]

/-- Splicing only below the length of u never touches an appended tail. -/
theorem anonTexts_frame (gen : Nat → List Char) :
    ∀ ds i (u v : List Char), DescChain u.length ds →
      anonTexts gen ds i (u ++ v) = anonTexts gen ds i u ++ v := by
  intro ds
  induction ds with
  | nil => intro i u v _; rfl
  | cons r rest ih =>
    intro i u v hch
    have hr := hch.2.2 r (List.mem_cons_self r rest)
    show anonTexts gen rest (i + 1) (setSlice (u ++ v) r.start r.stop (gen i)) = _
    rw [setSlice_append u v (gen i) r.start r.stop (le_of_lt (lt_of_lt_of_le hr.1 hr.2)) hr.2]
    refine ih (i + 1) (setSlice u r.start r.stop (gen i)) v ?_
    refine DescChain_mono ?_ (DescChain_tail hch)
    unfold setSlice
    rw [List.length_append, List.length_append, List.length_take,
      min_eq_left (le_of_lt (lt_of_lt_of_le hr.1 hr.2))]
    omega

/-- The splicing pass, on a descending disjoint chain of valid spans,
computes exactly the segmented text. -/
theorem anonTexts_expected (gen : Nat → List Char) :
    ∀ ds i (t : List Char), DescChain t.length ds →
      anonTexts gen ds i t = expectedAnon gen t ds i := by
  intro ds
  induction ds with
  | nil => intro i t _; rfl
  | cons r rest ih =>
    intro i t hch
    have hr := hch.2.2 r (List.mem_cons_self r rest)
    have hsplit : setSlice t r.start r.stop (gen i) =
        t.take r.start ++ (gen i ++ t.drop r.stop) := by
      unfold setSlice
      rw [max_eq_right (le_of_lt hr.1)]
      simp [List.append_assoc]
    have hchain' : DescChain (t.take r.start).length rest := by
      refine DescChain_mono ?_ (DescChain_tail hch)
      rw [List.length_take, min_eq_left (le_of_lt (lt_of_lt_of_le hr.1 hr.2))]
    show anonTexts gen rest (i + 1) (setSlice t r.start r.stop (gen i)) = _
    rw [hsplit, anonTexts_frame gen rest (i + 1) _ _ hchain', ih (i + 1) _ hchain']
    show _ = expectedAnon gen (t.take r.start) rest (i + 1) ++ gen i ++ t.drop r.stop
    rw [List.append_assoc]

/-- For pairwise disjoint valid matches, the sorted list is a descending
disjoint chain. -/
theorem descChain_sort (t : List Char) (ms : List RecognizerResult)
    (hdisj : List.Pairwise disjointRR ms) (hval : ∀ r ∈ ms, validFor t r) :
    DescChain t.length (sortResultsDesc ms) := by
  refine ⟨sortResultsDesc_sorted ms, ?_, ?_⟩
  · exact ((sortResultsDesc_perm ms).pairwise_iff (fun h => disjointRR_symm h)).mpr hdisj
  · intro r hr
    exact hval r ((sortResultsDesc_perm ms).subset hr)

/-- C7: anonymize sorts the detector matches by start offset, descending
(the stable sort of the source), and for every family of pairwise
non-overlapping matches, each denoting a nonempty in-bounds span of the
text, the returned text is the segmentation of the input: each matched
span is replaced by exactly the placeholder generated for it and every
character outside the matched spans appears unchanged, which is what
expectedAnon spells out. -/
theorem C7_descending_splice (t s : List Char) (ms : List RecognizerResult)
    (gen : Nat → List Char) (st : Store)
    (hdisj : List.Pairwise disjointRR ms)
    (hval : ∀ r ∈ ms, validFor t r) :
    ∀ o st', anonymize t s ms gen st = .ok (o, st') →
      o = expectedAnon gen t (sortResultsDesc ms) 0 := by
  intro o st' hrun
  rw [anonymize_eq] at hrun
  have htext : anonTexts gen (sortResultsDesc ms) 0 t =
      expectedAnon gen t (sortResultsDesc ms) 0 :=
    anonTexts_expected gen (sortResultsDesc ms) 0 t (descChain_sort t ms hdisj hval)
  rcases hv : storeGet (anonStores t s gen (sortResultsDesc ms) 0 st)
      (sessionKeysKey s) with _ | v
  · rw [hv] at hrun
    cases hrun
    exact htext
  · cases v with
    | vstr w =>
      rw [hv] at hrun
      exact absurd hrun (by simp)
    | vlist cur =>
      rw [hv] at hrun
      cases hrun
      exact htext

/-- Witness for C7: the match over "X" in "hi X." is replaced by the
generated placeholder "Q" and nothing else changes. -/
theorem C7_descending_splice_witness :
    anonymize ("hi X.".data) ("s".data) [⟨"PERSON".data, 3, 4⟩]
        (fun _ => "Q".data) [] =
      .ok ("hi Q.".data,
        [(sessionKeysKey ("s".data), .vlist [("Q".data)]),
         (mappingKey ("s".data) ("Q".data), .vstr ("X".data))]) ∧
    "hi Q.".data =
      expectedAnon (fun _ => "Q".data) ("hi X.".data)
        (sortResultsDesc [⟨"PERSON".data, 3, 4⟩]) 0 :=
  ⟨by decide,
   C7_descending_splice ("hi X.".data) ("s".data) [⟨"PERSON".data, 3, 4⟩]
     (fun _ => "Q".data) [] (by decide) (by decide) ("hi Q.".data)
     [(sessionKeysKey ("s".data), .vlist [("Q".data)]),
      (mappingKey ("s".data) ("Q".data), .vstr ("X".data))] (by decide)⟩

/-! ### C1: round trip — string replacement machinery -/

/-- isPrefixOf agrees with prepend decomposition. -/
theorem isPrefixOf_decomp {l1 l2 : List Char} :
    l1.isPrefixOf l2 = true ↔ ∃ u, l1 ++ u = l2 := List.isPrefixOf_iff_prefix

/-- A substring occurrence exhibited by a decomposition makes substrB true. -/
theorem substrB_of_decomp (p P S : List Char) : substrB p (P ++ p ++ S) = true := by
  unfold substrB
  rw [List.any_eq_true]
  refine ⟨P.length, List.mem_range.mpr ?_, ?_⟩
  · rw [List.append_assoc, List.length_append]
    omega
  · rw [List.append_assoc, List.drop_left]
    exact isPrefixOf_decomp.mpr ⟨S, rfl⟩

theorem two_mem_le_length {α : Type} {a b : α} {l : List α}
    (ha : a ∈ l) (hb : b ∈ l) (hne : a ≠ b) : 2 ≤ l.length := by
  obtain ⟨l1, l2, rfl⟩ := List.append_of_mem ha
  rcases List.mem_append.mp hb with hb1 | hb2
  · have hpos := List.length_pos_of_mem hb1
    rw [List.length_append, List.length_cons]
    omega
  · rcases List.mem_cons.mp hb2 with he | hb3
    · exact absurd he.symm hne
    · have hpos := List.length_pos_of_mem hb3
      rw [List.length_append, List.length_cons]
      omega

/-- Two distinct occurrence positions force at least two counted
occurrences. -/
theorem countOcc_two_positions (s p : List Char) (i1 i2 : Nat)
    (h1 : i1 < s.length + 1) (h2 : i2 < s.length + 1) (hne : i1 ≠ i2)
    (hp1 : p.isPrefixOf (s.drop i1) = true) (hp2 : p.isPrefixOf (s.drop i2) = true) :
    2 ≤ countOcc s p := by
  unfold countOcc
  rw [List.countP_eq_length_filter]
  exact two_mem_le_length
    (List.mem_filter.mpr ⟨List.mem_range.mpr h1, hp1⟩)
    (List.mem_filter.mpr ⟨List.mem_range.mpr h2, hp2⟩)
    hne

theorem take_of_decomp {s X p Y : List Char} (h : s = X ++ p ++ Y) :
    s.take X.length = X := by
  rw [h, List.append_assoc, List.take_left]

theorem drop_of_decomp {s X p Y : List Char} (h : s = X ++ p ++ Y) :
    s.drop X.length = p ++ Y := by
  rw [h, List.append_assoc, List.drop_left]

/-- A single counted occurrence pins down the decomposition point. -/
theorem countOcc_one_unique {s p P S : List Char} (hs : s = P ++ p ++ S)
    (h1 : countOcc s p = 1) : ∀ X Y, s = X ++ p ++ Y → X = P := by
  intro X Y hXY
  by_contra hne
  have hlne : X.length ≠ P.length := by
    intro hl
    exact hne ((take_of_decomp hXY).symm.trans (hl ▸ take_of_decomp hs))
  have hX : X.length < s.length + 1 := by
    rw [hXY, List.append_assoc, List.length_append]
    omega
  have hP : P.length < s.length + 1 := by
    rw [hs, List.append_assoc, List.length_append]
    omega
  have h2 := countOcc_two_positions s p X.length P.length hX hP hlne
    (by rw [drop_of_decomp hXY]; exact isPrefixOf_decomp.mpr ⟨Y, rfl⟩)
    (by rw [drop_of_decomp hs]; exact isPrefixOf_decomp.mpr ⟨S, rfl⟩)
  omega

/-- Where the pattern never occurs, the replace scan copies the text. -/
theorem pyReplaceAux_no_occ (old new : List Char) :
    ∀ s fuel, (∀ X Y : List Char, s ≠ X ++ old ++ Y) →
      pyReplaceAux old new fuel s = s := by
  intro s
  induction s with
  | nil => intro fuel _; cases fuel <;> rfl
  | cons c rest ih =>
    intro fuel hno
    cases fuel with
    | zero => rfl
    | succ f =>
      show (if old.isPrefixOf (c :: rest) then _ else _) = _
      rw [if_neg ?hnp]
      case hnp =>
        intro hpre
        obtain ⟨Y, hY⟩ := isPrefixOf_decomp.mp hpre
        exact hno [] Y (by rw [List.nil_append]; exact hY.symm)
      rw [ih f (fun X Y hXY => hno (c :: X) Y (by rw [hXY]; simp))]

/-- With a unique occurrence, the scan replaces exactly that occurrence. -/
theorem pyReplaceAux_unique (old new : List Char) (hold : old ≠ []) :
    ∀ P S fuel, (P ++ old ++ S).length ≤ fuel →
      (∀ X Y, P ++ old ++ S = X ++ old ++ Y → X = P) →
      pyReplaceAux old new fuel (P ++ old ++ S) = P ++ new ++ S := by
  intro P
  induction P with
  | nil =>
    intro S fuel hfuel huniq
    obtain ⟨o, ot, rfl⟩ := List.exists_cons_of_ne_nil hold
    cases fuel with
    | zero =>
      exfalso
      rw [List.nil_append, List.length_append, List.length_cons] at hfuel
      omega
    | succ f =>
      have hs : ([] : List Char) ++ (o :: ot) ++ S = o :: (ot ++ S) := by simp
      rw [hs]
      show (if (o :: ot).isPrefixOf (o :: (ot ++ S)) then _ else _) = _
      rw [if_pos (isPrefixOf_decomp.mpr ⟨S, by simp⟩)]
      have hdrop : (ot ++ S).drop ((o :: ot).length - 1) = S := by
        rw [List.length_cons, Nat.add_sub_cancel]
        exact List.drop_left ot S
      rw [hdrop, pyReplaceAux_no_occ _ new S f ?noS]
      · simp
      case noS =>
        intro X Y hXY
        have heq : ([] : List Char) ++ (o :: ot) ++ S =
            ((o :: ot) ++ X) ++ (o :: ot) ++ Y := by
          rw [hXY]
          simp
        exact List.cons_ne_nil o (ot ++ X) (by simpa using (huniq _ _ heq).symm)
  | cons c P' ih =>
    intro S fuel hfuel huniq
    cases fuel with
    | zero =>
      exfalso
      rw [List.cons_append, List.cons_append, List.length_cons] at hfuel
      omega
    | succ f =>
      have hs : (c :: P') ++ old ++ S = c :: (P' ++ old ++ S) := by simp
      rw [hs]
      show (if old.isPrefixOf (c :: (P' ++ old ++ S)) then _ else _) = _
      rw [if_neg ?hnp]
      case hnp =>
        intro hpre
        obtain ⟨Y, hY⟩ := isPrefixOf_decomp.mp hpre
        have h0 := huniq [] Y (by rw [List.nil_append, hY, hs])
        exact List.cons_ne_nil c P' h0.symm
      rw [ih S f ?hf ?hu]
      · simp
      case hf =>
        rw [hs, List.length_cons] at hfuel
        omega
      case hu =>
        intro X Y hXY
        have : (c :: P') ++ old ++ S = (c :: X) ++ old ++ Y := by
          rw [hs, hXY]
          simp
        have h0 := huniq (c :: X) Y this
        exact ((List.cons.injEq c X c P').mp h0).2

/-- str.replace at a nonempty pattern with a unique occurrence. -/
theorem pyReplace_unique (P old S new : List Char) (hold : old ≠ [])
    (huniq : ∀ X Y, P ++ old ++ S = X ++ old ++ Y → X = P) :
    pyReplace (P ++ old ++ S) old new = P ++ new ++ S := by
  unfold pyReplace
  rw [if_neg hold]
  exact pyReplaceAux_unique old new hold P S _ (le_refl _) huniq

/-- A nonempty in-bounds span slices to a nonempty string. -/
theorem pySlice_ne_nil (t : List Char) (s e : Nat) (hse : s < e) (he : e ≤ t.length) :
    pySlice t s e ≠ [] := by
  intro h
  have hl : (pySlice t s e).length = 0 := by rw [h]; rfl
  unfold pySlice at hl
  rw [List.length_drop, List.length_take, min_eq_left he] at hl
  omega

theorem drop_take_append_drop (t : List Char) (s e : Nat) (hse : s ≤ e) (he : e ≤ t.length) :
    (t.take e).drop s ++ t.drop e = t.drop s := by
  conv_rhs => rw [← List.take_append_drop e t]
  rw [List.drop_append_eq_append_drop]
  have h0 : s - (t.take e).length = 0 := by
    rw [List.length_take, min_eq_left he]
    omega
  rw [h0, List.drop_zero]

/-- Segmenting a prefix and then appending the untouched tail is the same
as segmenting the whole text, for matches lying inside the prefix. -/
theorem expectedAnon_unframe (gen : Nat → List Char) (t : List Char) (m : Nat)
    (hm : m ≤ t.length) :
    ∀ l i, DescChain m l →
      expectedAnon gen (t.take m) l i ++ t.drop m = expectedAnon gen t l i := by
  intro l
  cases l with
  | nil => intro i _; exact List.take_append_drop m t
  | cons r l' =>
    intro i hch
    have hr := hch.2.2 r (List.mem_cons_self _ _)
    show (expectedAnon gen ((t.take m).take r.start) l' (i + 1) ++ gen i ++
        (t.take m).drop r.stop) ++ t.drop m = _
    have h1 : (t.take m).take r.start = t.take r.start := by
      rw [List.take_take, min_eq_left (le_of_lt (lt_of_lt_of_le hr.1 hr.2))]
    have h2 : (t.take m).drop r.stop ++ t.drop m = t.drop r.stop :=
      drop_take_append_drop t r.stop m hr.2 hm
    rw [h1, List.append_assoc, h2]
    rfl

/-- The placeholder stream drawn in calls i, i+1, ..., i+n-1. -/
def genList (gen : Nat → List Char) (i n : Nat) : List (List Char) :=
  (List.range' i n).map gen

theorem genList_succ (gen : Nat → List Char) (i n : Nat) :
    genList gen i (n + 1) = gen i :: genList gen (i + 1) n := rfl

theorem dictInsert_keys_of_not_mem (nm : PyDict) (key v : List Char)
    (h : key ∉ dictKeys nm) :
    dictKeys (dictInsert nm key v) = dictKeys nm ++ [key] := by
  unfold dictInsert
  have hany : nm.any (fun kv => kv.1 == key) = false := by
    rw [List.any_eq_false]
    intro kv hkv
    simp only [beq_iff_eq]
    exact fun he => h (he ▸ List.mem_map_of_mem (fun kv => kv.1) hkv)
  rw [if_neg (by rw [hany]; exact Bool.false_ne_true)]
  simp [dictKeys]

/-- With pairwise fresh placeholders, new_mappings collects exactly the
drawn placeholder stream, in draw order. -/
theorem dictKeys_anonDicts_fresh (text : List Char) (gen : Nat → List Char) :
    ∀ ds i nm,
      (∀ j, j < ds.length → gen (i + j) ∉ dictKeys nm) →
      (∀ j1 j2, j1 < ds.length → j2 < ds.length → j1 ≠ j2 → gen (i + j1) ≠ gen (i + j2)) →
      dictKeys (anonDicts text gen ds i nm) = dictKeys nm ++ genList gen i ds.length := by
  intro ds
  induction ds with
  | nil => intro i nm _ _; simp [anonDicts, genList, List.range']
  | cons r rest ih =>
    intro i nm hnm hinj
    have h0 : gen i ∉ dictKeys nm := by simpa using hnm 0 (by simp)
    have hkeys' : dictKeys (dictInsert nm (gen i) (pySlice text r.start r.stop)) =
        dictKeys nm ++ [gen i] :=
      dictInsert_keys_of_not_mem nm (gen i) _ h0
    show dictKeys (anonDicts text gen rest (i + 1)
        (dictInsert nm (gen i) (pySlice text r.start r.stop))) = _
    rw [ih (i + 1) _ ?hn ?hi]
    · rw [hkeys', List.length_cons, genList_succ, List.append_assoc]
      rfl
    case hn =>
      intro j hj
      rw [hkeys']
      intro hmem
      rcases List.mem_append.mp hmem with h1 | h2
      · refine hnm (j + 1) (by simp only [List.length_cons]; omega) ?_
        rw [show i + (j + 1) = i + 1 + j from by omega]
        exact h1
      · have he : gen (i + 1 + j) = gen i := by simpa using h2
        refine hinj 0 (j + 1) (by simp) (by simp only [List.length_cons]; omega)
          (by omega) ?_
        rw [show i + 0 = i from rfl, show i + (j + 1) = i + 1 + j from by omega]
        exact he.symm
    case hi =>
      intro j1 j2 h1 h2 hne
      have h3 := hinj (j1 + 1) (j2 + 1) (by simp only [List.length_cons]; omega)
        (by simp only [List.length_cons]; omega) (by omega)
      rwa [show i + (j1 + 1) = i + 1 + j1 from by omega,
        show i + (j2 + 1) = i + 1 + j2 from by omega] at h3

/-- After the loop, the j-th drawn placeholder (fresh among the later
draws) maps to the j-th processed original substring. -/
theorem anonStores_get_written (text s : List Char) (gen : Nat → List Char) :
    ∀ ds i st j (hj : j < ds.length),
      (∀ j2, j2 < ds.length → j2 ≠ j → gen (i + j2) ≠ gen (i + j)) →
      storeGet (anonStores text s gen ds i st) (mappingKey s (gen (i + j))) =
        some (.vstr (pySlice text (ds.get ⟨j, hj⟩).start (ds.get ⟨j, hj⟩).stop)) := by
  intro ds
  induction ds with
  | nil => intro i st j hj _; exact absurd hj (by simp)
  | cons r rest ih =>
    intro i st j hj hdist
    cases j with
    | zero =>
      show storeGet (anonStores text s gen rest (i + 1)
        (storeSet st (mappingKey s (gen i)) (.vstr (pySlice text r.start r.stop)))) _ = _
      rw [anonStores_frame text s gen rest (i + 1) _ _ ?hfr]
      · rw [show i + 0 = i from rfl, storeGet_set_self]
        rfl
      case hfr =>
        intro j2 hj2 he
        have hg := mappingKey_inj_right he
        refine hdist (j2 + 1) (by simp only [List.length_cons]; omega) (by omega) ?_
        rw [show i + (j2 + 1) = i + 1 + j2 from by omega]
        rw [show i + 0 = i from rfl] at hg
        exact hg.symm
    | succ j' =>
      show storeGet (anonStores text s gen rest (i + 1)
        (storeSet st (mappingKey s (gen i)) (.vstr (pySlice text r.start r.stop)))) _ = _
      have harr : i + (j' + 1) = i + 1 + j' := by omega
      rw [harr]
      have hj2 : j' < rest.length := by
        simp only [List.length_cons] at hj
        omega
      rw [ih (i + 1) _ j' hj2 ?hd]
      · rfl
      case hd =>
        intro j2 h2 hne
        have h3 := hdist (j2 + 1) (by simp only [List.length_cons]; omega) (by omega)
        rwa [show i + (j2 + 1) = i + 1 + j2 from by omega, harr] at h3

/-- One deanonymize iteration in the replacing branch. -/
theorem deanonLoop_cons_replace (s : List Char) (st : Store) (p : List Char)
    (rest : List (List Char)) (text v : List Char)
    (hin : substrB p text = true)
    (hget : storeGet st (mappingKey s p) = some (.vstr v))
    (hv : v ≠ []) :
    deanonLoop s st (p :: rest) text = deanonLoop s st rest (pyReplace text p v) := by
  show (if substrB p text then
      (match storeGet st (mappingKey s p) with
       | some (.vstr w) =>
         if w = [] then deanonLoop s st rest text
         else deanonLoop s st rest (pyReplace text p w)
       | some (.vlist l) =>
         if l = [] then deanonLoop s st rest text else .error .typeError
       | none => deanonLoop s st rest text)
    else deanonLoop s st rest text) = _
  rw [if_pos hin, hget]
  exact if_neg hv

/-- The deanonymize loop over the drawn placeholders, in draw order,
restores the original text: the i-th draw sits rightmost in the remaining
placeheld region, occurs exactly once there, and its mapping record holds
the original substring of its span. -/
theorem deanonLoop_restore (s : List Char) (st' : Store) (gen : Nat → List Char)
    (t : List Char) :
    ∀ ds i, DescChain t.length ds →
      (∀ j (hj : j < ds.length),
        storeGet st' (mappingKey s (gen (i + j))) =
          some (.vstr (pySlice t (ds.get ⟨j, hj⟩).start (ds.get ⟨j, hj⟩).stop))) →
      (∀ j, j < ds.length →
        countOcc (expectedAnon gen t (ds.drop j) (i + j)) (gen (i + j)) = 1) →
      (∀ j, j < ds.length → gen (i + j) ≠ []) →
      deanonLoop s st' (genList gen i ds.length) (expectedAnon gen t ds i) = .ok t := by
  intro ds
  induction ds with
  | nil => intro i _ _ _ _; rfl
  | cons r rest ih =>
    intro i hch hrec hocc hnil
    have hr := hch.2.2 r (List.mem_cons_self _ _)
    have hstart_le : r.start ≤ t.length := le_of_lt (lt_of_lt_of_le hr.1 hr.2)
    have hT : expectedAnon gen t (r :: rest) i =
        expectedAnon gen (t.take r.start) rest (i + 1) ++ gen i ++ t.drop r.stop := rfl
    have hocc0 : countOcc (expectedAnon gen t (r :: rest) i) (gen i) = 1 := by
      have h0 := hocc 0 (by simp)
      rwa [show i + 0 = i from rfl] at h0
    have hnil0 : gen i ≠ [] := by
      have h0 := hnil 0 (by simp)
      rwa [show i + 0 = i from rfl] at h0
    have hget0 : storeGet st' (mappingKey s (gen i)) =
        some (.vstr (pySlice t r.start r.stop)) := by
      have h0 := hrec 0 (by simp)
      rwa [show i + 0 = i from rfl] at h0
    have hv0 : pySlice t r.start r.stop ≠ [] := pySlice_ne_nil t r.start r.stop hr.1 hr.2
    have hrepl : pyReplace (expectedAnon gen t (r :: rest) i) (gen i)
        (pySlice t r.start r.stop) = expectedAnon gen t rest (i + 1) := by
      rw [hT, pyReplace_unique _ _ _ _ hnil0 (countOcc_one_unique rfl hocc0)]
      show expectedAnon gen (t.take r.start) rest (i + 1) ++
          ((t.take r.stop).drop r.start) ++ t.drop r.stop = _
      rw [List.append_assoc,
        drop_take_append_drop t r.start r.stop (le_of_lt hr.1) hr.2]
      exact expectedAnon_unframe gen t r.start hstart_le rest (i + 1) (DescChain_tail hch)
    show deanonLoop s st' (genList gen i (rest.length + 1)) (expectedAnon gen t (r :: rest) i) = _
    rw [genList_succ,
      deanonLoop_cons_replace s st' (gen i) _ _ (pySlice t r.start r.stop)
        (by rw [hT]; exact substrB_of_decomp _ _ _) hget0 hv0,
      hrepl]
    refine ih (i + 1) (DescChain_mono hstart_le (DescChain_tail hch)) ?hrec ?hocc ?hnil
    case hrec =>
      intro j hj
      have h0 := hrec (j + 1) (by simp only [List.length_cons]; omega)
      rwa [show i + (j + 1) = i + 1 + j from by omega] at h0
    case hocc =>
      intro j hj
      have h0 := hocc (j + 1) (by simp only [List.length_cons]; omega)
      rwa [show i + (j + 1) = i + 1 + j from by omega] at h0
    case hnil =>
      intro j hj
      have h0 := hnil (j + 1) (by simp only [List.length_cons]; omega)
      rwa [show i + (j + 1) = i + 1 + j from by omega] at h0

/-- anonymize on a session whose keys slot stays absent through the loop. -/
theorem anonymize_of_no_slot (text s : List Char) (ms : List RecognizerResult)
    (gen : Nat → List Char) (st : Store)
    (h : storeGet (anonStores text s gen (sortResultsDesc ms) 0 st)
      (sessionKeysKey s) = none) :
    anonymize text s ms gen st =
      .ok (anonTexts gen (sortResultsDesc ms) 0 text,
        storeSet (anonStores text s gen (sortResultsDesc ms) 0 st) (sessionKeysKey s)
          (.vlist (dictKeys (anonDicts text gen (sortResultsDesc ms) 0 [])))) := by
  rw [anonymize_eq, h]

/-- deanonymize walks exactly the stored session list. -/
theorem deanonymize_of_slot_list (text s : List Char) (st : Store)
    (L : List (List Char)) (h : storeGet st (sessionKeysKey s) = some (.vlist L)) :
    deanonymize text s st = deanonLoop s st L text := by
  unfold deanonymize
  rw [h]

/-- C1 counterexample: a single non-overlapping in-bounds match with a
stable detector, no TTL and no eviction, yet the round trip corrupts the
text: the generated placeholder "a" also occurs in the untouched part of
"aX", so deanonymize replaces both occurrences and returns "XX". -/
theorem C1_counterexample :
    roundTrip ("aX".data) ("s".data) [⟨"PERSON".data, 1, 2⟩] (fun _ => "a".data) [] =
      .ok ("XX".data) ∧
    ("XX".data ≠ "aX".data) ∧
    List.Pairwise disjointRR [(⟨"PERSON".data, 1, 2⟩ : RecognizerResult)] ∧
    (∀ r ∈ [(⟨"PERSON".data, 1, 2⟩ : RecognizerResult)], validFor ("aX".data) r) :=
  ⟨by decide, by decide, by decide, by decide⟩

/-- C1 amended: on a fresh store, with the detector returning pairwise
non-overlapping nonempty in-bounds spans and the generated placeholders
fresh — pairwise distinct, nonempty, none equal to the literal "keys", and
each occurring exactly once in the intermediate text in which it is to be
restored — deanonymize(anonymize(t, s), s) returns t exactly. -/
theorem C1_roundtrip_fresh (t s : List Char) (ms : List RecognizerResult)
    (gen : Nat → List Char)
    (hdisj : List.Pairwise disjointRR ms)
    (hval : ∀ r ∈ ms, validFor t r)
    (hinj : ∀ j1 j2, j1 < (sortResultsDesc ms).length →
      j2 < (sortResultsDesc ms).length → j1 ≠ j2 → gen j1 ≠ gen j2)
    (hkeys : ∀ j, j < (sortResultsDesc ms).length → gen j ≠ "keys".data)
    (hnil : ∀ j, j < (sortResultsDesc ms).length → gen j ≠ [])
    (hocc : ∀ j, j < (sortResultsDesc ms).length →
      countOcc (expectedAnon gen t ((sortResultsDesc ms).drop j) j) (gen j) = 1) :
    roundTrip t s ms gen [] = .ok t := by
  have hch : DescChain t.length (sortResultsDesc ms) := descChain_sort t ms hdisj hval
  have hslot : storeGet (anonStores t s gen (sortResultsDesc ms) 0 [])
      (sessionKeysKey s) = none := by
    rw [anonStores_frame t s gen _ 0 [] _ ?hfr]
    · rfl
    case hfr =>
      intro j hj he
      refine hkeys j (by omega) ?_
      rw [Nat.zero_add] at he
      exact mappingKey_eq_keysKey_iff.mp he.symm
  unfold roundTrip
  rw [anonymize_of_no_slot t s ms gen [] hslot]
  have hbind : ∀ (x : List Char × Store) (f : List Char × Store → Except PyErr (List Char)),
      Except.bind (Except.ok x) f = f x := fun x f => rfl
  rw [hbind]
  rw [deanonymize_of_slot_list _ s _ _ (storeGet_set_self _ _ _)]
  have hkeyslist : dictKeys (anonDicts t gen (sortResultsDesc ms) 0 []) =
      genList gen 0 (sortResultsDesc ms).length := by
    have h0 := dictKeys_anonDicts_fresh t gen (sortResultsDesc ms) 0 []
      (fun j hj => by simp [dictKeys])
      (fun j1 j2 h1 h2 hne => by
        rw [Nat.zero_add, Nat.zero_add]
        exact hinj j1 j2 h1 h2 hne)
    simpa [dictKeys] using h0
  rw [hkeyslist, anonTexts_expected gen _ 0 t hch]
  refine deanonLoop_restore s _ gen t (sortResultsDesc ms) 0 hch ?hrec ?hocc2 ?hnil2
  case hrec =>
    intro j hj
    rw [Nat.zero_add]
    rw [storeGet_set_ne _ _ _ _ ?hne]
    case hne =>
      intro he
      exact hkeys j hj (mappingKey_eq_keysKey_iff.mp he.symm)
    have h0 := anonStores_get_written t s gen (sortResultsDesc ms) 0 [] j hj
      (fun j2 h2 hne => by
        rw [Nat.zero_add, Nat.zero_add]
        exact hinj j2 j h2 hj hne)
    rwa [Nat.zero_add] at h0
  case hocc2 =>
    intro j hj
    rw [Nat.zero_add]
    exact hocc j hj
  case hnil2 =>
    intro j hj
    rw [Nat.zero_add]
    exact hnil j hj

/-- Witness for C1 amended: anonymizing "hi X." with the fresh placeholder
"Q" and deanonymizing under the same session restores "hi X.". -/
theorem C1_roundtrip_fresh_witness :
    roundTrip ("hi X.".data) ("s".data) [⟨"PERSON".data, 3, 4⟩]
      (fun _ => "Q".data) [] = .ok ("hi X.".data) :=
  C1_roundtrip_fresh ("hi X.".data) ("s".data) [⟨"PERSON".data, 3, 4⟩]
    (fun _ => "Q".data)
    (by decide) (by decide)
    (fun j1 j2 h1 h2 hne => by
      have hl : (sortResultsDesc [(⟨"PERSON".data, 3, 4⟩ : RecognizerResult)]).length = 1 :=
        by decide
      rw [hl] at h1 h2
      exact absurd (by omega) hne)
    (fun j hj => by
      have h : ("Q".data : List Char) ≠ "keys".data := by decide
      exact h)
    (fun j hj => by
      have h : ("Q".data : List Char) ≠ [] := by decide
      exact h)
    (fun j hj => by
      have hl : (sortResultsDesc [(⟨"PERSON".data, 3, 4⟩ : RecognizerResult)]).length = 1 :=
        by decide
      rw [hl] at hj
      have hz : j = 0 := by omega
      subst hz
      decide)

end PiiGateway
